import Mathlib

/-!
# Reduce-side merge step of the MapReduce lab (`common_reduce.go`)

A shallow embedding of `doReduce` and of the environment it runs in (the file
system, the JSON stream decoder and encoder, the Go map), followed by the
properties of the natural-language specification that were settled against it.
-/

namespace MapReduce

/-! ## Data model -/

/-- Modelled from the spec: the `KeyValue` struct, which is declared outside
`common_reduce.go`; the spec describes it as a (key: string, value: string) pair.
Go strings obtained from the JSON decoder are valid UTF-8, on which Go's
byte-wise comparison and the code-point-wise comparison of `String` agree. -/
structure KeyValue where
  Key : String
  Value : String
deriving DecidableEq

/-- What `json.Decoder` finds at the next top-level position of a file.

* `object key value`: a well-formed JSON object that unmarshals into a
  `KeyValue` without error; a field that the object does not mention is `none`
  and leaves the corresponding field of the destination struct untouched.
* `invalid err`: any other content that starts with a byte for which
  `dec.More()` reports `true` and on which `dec.Decode` returns the error `err`
  (a truncated object, a syntax error, a value of the wrong type).
* `closer`: a closing bracket or brace at the top level; `dec.More()` reports
  `false` there, exactly as it does at the end of the file. -/
inductive Chunk where
  | object (key value : Option String)
  | invalid (err : String)
  | closer
deriving DecidableEq

/-- The chunk that `enc.Encode` writes for a record: both fields are present. -/
def encodeKV (kv : KeyValue) : Chunk :=
  Chunk.object (some kv.Key) (some kv.Value)

/-- The environment of one invocation: the content of every file that can be
opened (`none`: `os.Open` fails), the names for which `os.Create` fails, and
for every write attempt on the destination (numbered from zero) whether it
fails (`none`: it succeeds; `some rest`: it fails, and `rest` is what the
failed write leaves in the file, for instance nothing or a torn record). -/
structure World where
  files : String → Option (List Chunk)
  createFails : String → Bool
  writeFails : Nat → Option (List Chunk)

/-- How an invocation ends: `doReduce` has no result value, it either returns
or terminates the process through `log.Fatal`. -/
inductive Outcome where
  | returned
  | fatal (msg : String)
deriving DecidableEq

/-- Whether the invocation ended in `log.Fatal`. -/
def Outcome.failed : Outcome → Bool
  | Outcome.returned => false
  | Outcome.fatal _ => true

/-- The observable result of one invocation: how it ended, the file system it
leaves behind, and the calls of `reduceF` it made, in order. -/
structure Run where
  outcome : Outcome
  files : String → Option (List Chunk)
  calls : List (String × List String)

/-! ## The Go map `map[string][]string` -/

/-- A Go map from keys to value slices, kept as an association list. -/
abbrev GoMap := List (String × List String)

/-- The expression `m[k]`: the nil slice when the key is absent. -/
def GoMap.get : GoMap → String → List String
  | [], _ => []
  | (k', vs) :: rest, k => if k' = k then vs else GoMap.get rest k

/-- The assignment `m[k] = vs`. -/
def GoMap.set : GoMap → String → List String → GoMap
  | [], k, vs => [(k, vs)]
  | (k', vs') :: rest, k, vs =>
    if k' = k then (k, vs) :: rest else (k', vs') :: GoMap.set rest k vs

/-- The keys held by the map. -/
def GoMap.keys (m : GoMap) : List String :=
  m.map Prod.fst

/-- The order in which `for k := range m` visits the keys: Go leaves it
unspecified, so it is an arbitrary rearrangement of the keys. -/
structure RangeOrder where
  shuffle : List String → List String
  perm : ∀ l, (shuffle l).Perm l

/-- The statement `m[kv.Key] = append(m[kv.Key], kv.Value)` of line 69. -/
def addKV (m : GoMap) (kv : KeyValue) : GoMap :=
  m.set kv.Key (m.get kv.Key ++ [kv.Value])

/-! ## The collection loop (lines 54 to 72) -/

/-- The effect of `dec.Decode(&kv)` on the variable `kv` for an object. -/
def decodeInto (kv : KeyValue) (key value : Option String) : KeyValue :=
  ⟨key.getD kv.Key, value.getD kv.Value⟩

/-- The loop `for dec.More() ...` of lines 64 to 70 on the remaining content of
one file, with the current value of the variable `kv`. -/
def decodeLoop : List Chunk → KeyValue → GoMap → Except String GoMap
  | [], _, m => Except.ok m
  | Chunk.closer :: _, _, m => Except.ok m
  | Chunk.invalid err :: _, _, _ => Except.error ("json decode failed " ++ err)
  | Chunk.object key value :: rest, kv, m =>
    decodeLoop rest (decodeInto kv key value) (addKV m (decodeInto kv key value))

/-- The loop over the map tasks of lines 56 to 72, for the remaining indices. -/
def collectFrom (w : World) (reduceName : String → Int → Int → String)
    (jobName : String) (reduceTask : Int) : List Nat → GoMap → Except String GoMap
  | [], m => Except.ok m
  | i :: is, m =>
    match w.files (reduceName jobName (i : Int) reduceTask) with
    | none =>
      Except.error ("Unable to read from: " ++ reduceName jobName (i : Int) reduceTask)
    | some chunks =>
      match decodeLoop chunks ⟨"", ""⟩ m with
      | Except.error e => Except.error e
      | Except.ok m' => collectFrom w reduceName jobName reduceTask is m'

/-- The grouped mapping after the collection loop: `i` runs from `0` while
`i < nMap`, starting from the empty map. -/
def collect (w : World) (reduceName : String → Int → Int → String)
    (jobName : String) (reduceTask : Int) (nMap : Int) : Except String GoMap :=
  collectFrom w reduceName jobName reduceTask (List.range nMap.toNat) []

/-! ## The emission phase (lines 74 to 88) -/

/-- The comparison `a < b` of two Go strings: lexicographic, character by
character (on valid UTF-8 this is the byte-wise order that Go uses). -/
def strLess (a b : String) : Bool :=
  decide (a.data < b.data)

/-- The call `sort.Strings(keys)`: the keys in increasing order (an insertion
sort that puts `a` before `b` unless `b < a`). -/
def sortStrings (keys : List String) : List String :=
  keys.insertionSort (fun a b => strLess b a = false)

/-- The state of the `json.Encoder` on the destination: the content written so
far, whether an earlier write failed (the encoder then refuses every later
call) and the number of write attempts made. -/
structure Encoder where
  out : List Chunk
  err : Bool
  attempts : Nat

/-- The call `enc.Encode(kv)`: the new state of the encoder and whether the call
reported an error. -/
def Encoder.Encode (w : World) (enc : Encoder) (kv : KeyValue) : Encoder × Bool :=
  if enc.err then (enc, true)
  else
    match w.writeFails enc.attempts with
    | some rest => (⟨enc.out ++ rest, true, enc.attempts + 1⟩, true)
    | none => (⟨enc.out ++ [encodeKV kv], false, enc.attempts + 1⟩, false)

/-- The state of the loop of lines 86 to 88: the encoder and the calls of
`reduceF` made so far. -/
structure EmitState where
  enc : Encoder
  calls : List (String × List String)

/-- One iteration of the loop of lines 86 to 88: `reduceF` is called and the
record is handed to the encoder, whose error result is dropped. -/
def emitStep (w : World) (reduceF : String → List String → String) (m : GoMap)
    (st : EmitState) (k : String) : EmitState :=
  ⟨(st.enc.Encode w ⟨k, reduceF k (m.get k)⟩).1, st.calls ++ [(k, m.get k)]⟩

/-- The function `doReduce`. -/
def doReduce (w : World) (ro : RangeOrder) (reduceName : String → Int → Int → String)
    (jobName : String) (reduceTask : Int) (outFile : String) (nMap : Int)
    (reduceF : String → List String → String) : Run :=
  match collect w reduceName jobName reduceTask nMap with
  | Except.error msg => ⟨Outcome.fatal msg, w.files, []⟩
  | Except.ok m =>
    let keys := sortStrings (ro.shuffle m.keys)
    if w.createFails outFile then
      ⟨Outcome.fatal ("Unable to create file: " ++ outFile), w.files, []⟩
    else
      let st := keys.foldl (emitStep w reduceF m) ⟨⟨[], false, 0⟩, []⟩
      ⟨Outcome.returned, Function.update w.files outFile (some st.enc.out), st.calls⟩

/-! ## The function `sortByKey` (lines 92 to 96) -/

/-- The order that `sort.Slice` leaves among records of equal key: the sort is
not stable, so it is an arbitrary rearrangement of the slice, applied before a
stable sort. -/
structure TieOrder where
  shuffle : List KeyValue → List KeyValue
  perm : ∀ l, (shuffle l).Perm l

/-- The function `sortByKey`: the new content of the slice `kvPair` after
`sort.Slice` with the comparison `kvPair[i].Key < kvPair[j].Key`. -/
def sortByKey (t : TieOrder) (kvPair : List KeyValue) : List KeyValue :=
  (t.shuffle kvPair).insertionSort (fun a b => strLess b.Key a.Key = false)

/-! ## Vocabulary of the specification -/

/-- The records that the `Decode` calls on the remaining content of one file
yield, in order; `none` when one of the calls returns an error. -/
def decodeAll : List Chunk → KeyValue → Option (List KeyValue)
  | [], _ => some []
  | Chunk.closer :: _, _ => some []
  | Chunk.invalid _ :: _, _ => none
  | Chunk.object key value :: rest, kv =>
    (decodeAll rest (decodeInto kv key value)).map
      (fun recs => decodeInto kv key value :: recs)

/-- The records of the input files with the given map-task indices, file by
file; `none` when a file cannot be opened or a `Decode` call fails. -/
def readFiles (w : World) (reduceName : String → Int → Int → String)
    (jobName : String) (reduceTask : Int) : List Nat → Option (List (List KeyValue))
  | [] => some []
  | i :: is =>
    match w.files (reduceName jobName (i : Int) reduceTask) with
    | none => none
    | some chunks =>
      match decodeAll chunks ⟨"", ""⟩ with
      | none => none
      | some recs =>
        (readFiles w reduceName jobName reduceTask is).map (fun fss => recs :: fss)

/-- The records of the `nMap` input files of a reduce task, file by file, when
all of them open and decode successfully. -/
def inputRecords (w : World) (reduceName : String → Int → Int → String)
    (jobName : String) (reduceTask : Int) (nMap : Int) : Option (List (List KeyValue)) :=
  readFiles w reduceName jobName reduceTask (List.range nMap.toNat)

/-- The contents of the `nMap` input files of a reduce task, by increasing
map-task index (`none` for a file that cannot be opened). -/
def inputContents (w : World) (reduceName : String → Int → Int → String)
    (jobName : String) (reduceTask : Int) (nMap : Int) : List (Option (List Chunk)) :=
  (List.range nMap.toNat).map
    (fun (i : Nat) => w.files (reduceName jobName (i : Int) reduceTask))

/-- The values of the records that carry the key `k`, in record order. -/
def valuesOf (k : String) (recs : List KeyValue) : List String :=
  (recs.filter (fun r => decide (r.Key = k))).map KeyValue.Value

/-- The keys of the records, in record order. -/
def keysOf (recs : List KeyValue) : List String :=
  recs.map KeyValue.Key

/-- A reduce function that does not depend on the order of its values. -/
def OrderInsensitive (reduceF : String → List String → String) : Prop :=
  ∀ k vs vs', vs'.Perm vs → reduceF k vs' = reduceF k vs

/-! ## Concrete environments -/

/-- Go visits the keys in the order in which they were inserted. -/
def RangeOrder.inserted : RangeOrder :=
  ⟨id, fun l => List.Perm.refl l⟩

/-- Go visits the keys in the reverse of the order of insertion. -/
def RangeOrder.reversed : RangeOrder :=
  ⟨List.reverse, fun l => List.reverse_perm l⟩

/-- A naming convention with three file names: `in0` for map task 0, `in1` for
map task 1 and `inx` for every other map task. -/
def sampleName : String → Int → Int → String :=
  fun _ i _ => if i = 0 then "in0" else if i = 1 then "in1" else "inx"

/-- A reduce function that returns one tally mark per value. -/
def tally : String → List String → String :=
  fun _ vs => String.mk (List.replicate vs.length (Char.ofNat 49))

/-- The two input files of the example of the specification; every other file
is absent, and neither the creation of a file nor a write fails. -/
def sampleWorld : World :=
  ⟨fun name =>
      if name = "in0" then some [encodeKV ⟨"cat", "1"⟩, encodeKV ⟨"dog", "1"⟩]
      else if name = "in1" then some [encodeKV ⟨"cat", "1"⟩, encodeKV ⟨"ant", "1"⟩]
      else none,
    fun _ => false, fun _ => none⟩

/-- The records of the two input files of `sampleWorld`. -/
def sampleRecords : List (List KeyValue) :=
  [[⟨"cat", "1"⟩, ⟨"dog", "1"⟩], [⟨"cat", "1"⟩, ⟨"ant", "1"⟩]]

/-- The environment `sampleWorld` with its two input files exchanged. -/
def swappedWorld : World :=
  ⟨fun name =>
      if name = "in0" then some [encodeKV ⟨"cat", "1"⟩, encodeKV ⟨"ant", "1"⟩]
      else if name = "in1" then some [encodeKV ⟨"cat", "1"⟩, encodeKV ⟨"dog", "1"⟩]
      else none,
    fun _ => false, fun _ => none⟩

/-- One input file whose content is a complete record for key `a`, then a
closing bracket, then a record for key `b` that is cut off before its end. -/
def strayCloserWorld : World :=
  ⟨fun name =>
      if name = "in0" then
        some [encodeKV ⟨"a", "1"⟩, Chunk.closer, Chunk.invalid "unexpected EOF"]
      else none,
    fun _ => false, fun _ => none⟩

/-- One input file with a record for key `a` and a record for key `b`; the
destination can be created, its first write succeeds and every later write
fails, leaving a torn record behind. -/
def failingWriteWorld : World :=
  ⟨fun name =>
      if name = "in0" then some [encodeKV ⟨"a", "1"⟩, encodeKV ⟨"b", "1"⟩] else none,
    fun _ => false,
    fun n => if 1 ≤ n then some [Chunk.invalid "unexpected EOF"] else none⟩

/-- The environment that a run of `doReduce` on `sampleWorld` with destination
`out` leaves behind. -/
def sampleWorldAfterRun : World :=
  ⟨(doReduce sampleWorld RangeOrder.inserted sampleName "job" 0 "out" 2 tally).files,
    fun _ => false, fun _ => none⟩

/-- The value of a string of decimal digits. -/
def parseDecimal (s : String) : Nat :=
  s.data.foldl (fun acc c => acc * 10 + (c.toNat - 48)) 0

/-- Modelled from the spec: the summing reduce function of the example
scenarios, which is not part of `common_reduce.go`; it adds up the decimal
values and returns the sum as a decimal string. -/
def sumReduce : String → List String → String :=
  fun _ vs => Nat.repr ((vs.map parseDecimal).sum)

/-- One input file with two records for key `a`. -/
def aliasWorld : World :=
  ⟨fun name =>
      if name = "in0" then some [encodeKV ⟨"a", "1"⟩, encodeKV ⟨"a", "1"⟩] else none,
    fun _ => false, fun _ => none⟩

/-- Two input files in which five records carry the key `the`, three of them
in the second file, next to a record for another key. -/
def wordCountWorld : World :=
  ⟨fun name =>
      if name = "in0" then
        some [encodeKV ⟨"the", "1"⟩, encodeKV ⟨"a", "1"⟩, encodeKV ⟨"the", "1"⟩]
      else if name = "in1" then
        some [encodeKV ⟨"the", "1"⟩, encodeKV ⟨"the", "1"⟩, encodeKV ⟨"the", "1"⟩]
      else none,
    fun _ => false, fun _ => none⟩

/-- The records of the two input files of `wordCountWorld`. -/
def wordCountRecords : List (List KeyValue) :=
  [[⟨"the", "1"⟩, ⟨"a", "1"⟩, ⟨"the", "1"⟩], [⟨"the", "1"⟩, ⟨"the", "1"⟩, ⟨"the", "1"⟩]]

/-- A reduce function that depends on the order of its values: it returns
them joined, one after the other. -/
def joinValues : String → List String → String :=
  fun _ vs => String.join vs

/-- Two input files: the first holds the records `(k, x)` and `(j, 1)`, the
second the record `(k, y)`. -/
def orderedWorld : World :=
  ⟨fun name =>
      if name = "in0" then some [encodeKV ⟨"k", "x"⟩, encodeKV ⟨"j", "1"⟩]
      else if name = "in1" then some [encodeKV ⟨"k", "y"⟩]
      else none,
    fun _ => false, fun _ => none⟩

/-- The records of the two input files of `orderedWorld`. -/
def orderedRecords : List (List KeyValue) :=
  [[⟨"k", "x"⟩, ⟨"j", "1"⟩], [⟨"k", "y"⟩]]

/-- One input file that holds the content of the first file of `orderedWorld`
followed by the content of its second file. -/
def orderedMergedWorld : World :=
  ⟨fun name =>
      if name = "in0" then
        some [encodeKV ⟨"k", "x"⟩, encodeKV ⟨"j", "1"⟩, encodeKV ⟨"k", "y"⟩]
      else none,
    fun _ => false, fun _ => none⟩

/-- Two input files: the first holds the complete record `(a, 1)`, the second
a record for key `b` that has no `Value` field. -/
def splitOmittedWorld : World :=
  ⟨fun name =>
      if name = "in0" then some [encodeKV ⟨"a", "1"⟩]
      else if name = "in1" then some [Chunk.object (some "b") none]
      else none,
    fun _ => false, fun _ => none⟩

/-- One input file with a complete record for key `a` followed by a record for
key `b` that has no `Value` field. -/
def omittedValueWorld : World :=
  ⟨fun name =>
      if name = "in0" then some [encodeKV ⟨"a", "1"⟩, Chunk.object (some "b") none]
      else none,
    fun _ => false, fun _ => none⟩

/-- The unstable sort happens to keep records of equal key in their order. -/
def TieOrder.kept : TieOrder :=
  ⟨id, fun l => List.Perm.refl l⟩

/-! ## The Go map -/

theorem GoMap.get_set (m : GoMap) (k k' : String) (vs : List String) :
    (m.set k vs).get k' = if k = k' then vs else m.get k' := by
  induction m with
  | nil => simp [GoMap.set, GoMap.get]
  | cons p rest ih =>
    obtain ⟨a, b⟩ := p
    by_cases h : a = k
    · subst h
      by_cases h' : a = k' <;> simp [GoMap.set, GoMap.get, h']
    · by_cases h' : a = k'
      · subst h'
        have hk : ¬ k = a := fun e => h e.symm
        simp [GoMap.set, GoMap.get, h, hk]
      · simp [GoMap.set, GoMap.get, h, h', ih]

theorem GoMap.keys_set (m : GoMap) (k : String) (vs : List String) :
    (m.set k vs).keys = if k ∈ m.keys then m.keys else m.keys ++ [k] := by
  induction m with
  | nil => simp [GoMap.set, GoMap.keys]
  | cons p rest ih =>
    obtain ⟨a, b⟩ := p
    by_cases h : a = k
    · subst h
      simp [GoMap.set, GoMap.keys]
    · have hk : ¬ k = a := fun e => h e.symm
      have ih' : List.map Prod.fst (GoMap.set rest k vs) =
          if k ∈ List.map Prod.fst rest then List.map Prod.fst rest
          else List.map Prod.fst rest ++ [k] := ih
      by_cases hm : k ∈ List.map Prod.fst rest
      · rw [if_pos hm] at ih'
        have hm' : ∃ x, (k, x) ∈ rest := by simpa using hm
        simp [GoMap.set, GoMap.keys, h, hk, ih', hm']
      · rw [if_neg hm] at ih'
        have hm' : ¬ ∃ x, (k, x) ∈ rest := by simpa using hm
        simp [GoMap.set, GoMap.keys, h, hk, ih', hm']

theorem GoMap.mem_keys_set (m : GoMap) (k k' : String) (vs : List String) :
    k' ∈ (m.set k vs).keys ↔ k' = k ∨ k' ∈ m.keys := by
  rw [GoMap.keys_set]
  by_cases h : k ∈ m.keys
  · rw [if_pos h]
    constructor
    · exact Or.inr
    · rintro (e | e)
      · exact e ▸ h
      · exact e
  · rw [if_neg h]
    simp [or_comm]

theorem GoMap.nodup_keys_set (m : GoMap) (k : String) (vs : List String)
    (h : m.keys.Nodup) : (m.set k vs).keys.Nodup := by
  rw [GoMap.keys_set]
  by_cases hk : k ∈ m.keys
  · rw [if_pos hk]
    exact h
  · rw [if_neg hk]
    exact List.Nodup.append h (List.nodup_singleton k) (by simpa using hk)

theorem GoMap.get_of_not_mem_keys (m : GoMap) (k : String) (h : k ∉ m.keys) :
    m.get k = [] := by
  induction m with
  | nil => rfl
  | cons p rest ih =>
    obtain ⟨a, b⟩ := p
    have h1 : ¬ a = k := fun e => h (by simp [GoMap.keys, e])
    have h2 : k ∉ GoMap.keys rest := fun e => h (by
      have : k ∈ List.map Prod.fst rest := e
      simp [GoMap.keys] at this ⊢
      exact Or.inr this)
    simp [GoMap.get, h1, ih h2]

/-! ## Grouping a list of records -/

theorem get_foldl_addKV (recs : List KeyValue) (m : GoMap) (k : String) :
    (recs.foldl addKV m).get k = m.get k ++ valuesOf k recs := by
  induction recs generalizing m with
  | nil => simp [valuesOf]
  | cons r rest ih =>
    rw [List.foldl_cons, ih]
    by_cases h : r.Key = k
    · simp [addKV, GoMap.get_set, valuesOf, h]
    · simp [addKV, GoMap.get_set, valuesOf, h]

theorem mem_keys_foldl_addKV (recs : List KeyValue) (m : GoMap) (k : String) :
    k ∈ (recs.foldl addKV m).keys ↔ k ∈ m.keys ∨ k ∈ keysOf recs := by
  induction recs generalizing m with
  | nil => simp [keysOf]
  | cons r rest ih =>
    rw [List.foldl_cons, ih]
    simp only [addKV, GoMap.mem_keys_set, keysOf, List.map_cons, List.mem_cons]
    tauto

theorem nodup_keys_foldl_addKV (recs : List KeyValue) (m : GoMap) (h : m.keys.Nodup) :
    (recs.foldl addKV m).keys.Nodup := by
  induction recs generalizing m with
  | nil => exact h
  | cons r rest ih =>
    rw [List.foldl_cons]
    exact ih _ (GoMap.nodup_keys_set m _ _ h)

/-! ## The collection loop -/

theorem decodeLoop_of_decodeAll (chunks : List Chunk) (kv : KeyValue) (m : GoMap)
    (recs : List KeyValue) (h : decodeAll chunks kv = some recs) :
    decodeLoop chunks kv m = Except.ok (recs.foldl addKV m) := by
  induction chunks generalizing kv m recs with
  | nil =>
    simp only [decodeAll, Option.some.injEq] at h
    subst h
    rfl
  | cons c rest ih =>
    cases c with
    | closer =>
      simp only [decodeAll, Option.some.injEq] at h
      subst h
      rfl
    | invalid err => simp [decodeAll] at h
    | object key value =>
      simp only [decodeAll, Option.map_eq_some'] at h
      obtain ⟨tl, htl, rfl⟩ := h
      simp only [decodeLoop, List.foldl_cons]
      exact ih _ _ _ htl

theorem decodeLoop_of_decodeAll_none (chunks : List Chunk) (kv : KeyValue) (m : GoMap)
    (h : decodeAll chunks kv = none) :
    ∃ err, decodeLoop chunks kv m = Except.error ("json decode failed " ++ err) := by
  induction chunks generalizing kv m with
  | nil => simp [decodeAll] at h
  | cons c rest ih =>
    cases c with
    | closer => simp [decodeAll] at h
    | invalid err => exact ⟨err, rfl⟩
    | object key value =>
      simp only [decodeAll, Option.map_eq_none'] at h
      simp only [decodeLoop]
      exact ih _ _ h

theorem collectFrom_of_readFiles (w : World) (reduceName : String → Int → Int → String)
    (jobName : String) (reduceTask : Int) (idx : List Nat) (m : GoMap)
    (fss : List (List KeyValue))
    (h : readFiles w reduceName jobName reduceTask idx = some fss) :
    collectFrom w reduceName jobName reduceTask idx m =
      Except.ok (fss.flatten.foldl addKV m) := by
  induction idx generalizing m fss with
  | nil =>
    simp only [readFiles, Option.some.injEq] at h
    subst h
    rfl
  | cons i is ih =>
    simp only [readFiles] at h
    simp only [collectFrom]
    cases hf : w.files (reduceName jobName (i : Int) reduceTask) with
    | none => simp [hf] at h
    | some chunks =>
      simp only [hf] at h
      cases hd : decodeAll chunks ⟨"", ""⟩ with
      | none => simp [hd] at h
      | some recs =>
        simp only [hd, Option.map_eq_some'] at h
        obtain ⟨tl, htl, rfl⟩ := h
        simp only [decodeLoop_of_decodeAll chunks _ m recs hd, List.flatten_cons,
          List.foldl_append]
        exact ih _ _ htl

theorem collectFrom_of_readFiles_none (w : World)
    (reduceName : String → Int → Int → String) (jobName : String) (reduceTask : Int)
    (idx : List Nat) (m : GoMap)
    (h : readFiles w reduceName jobName reduceTask idx = none) :
    ∃ msg, collectFrom w reduceName jobName reduceTask idx m = Except.error msg := by
  induction idx generalizing m with
  | nil => simp [readFiles] at h
  | cons i is ih =>
    simp only [readFiles] at h
    simp only [collectFrom]
    cases hf : w.files (reduceName jobName (i : Int) reduceTask) with
    | none => exact ⟨_, rfl⟩
    | some chunks =>
      simp only [hf] at h
      cases hd : decodeAll chunks ⟨"", ""⟩ with
      | none =>
        obtain ⟨err, he⟩ := decodeLoop_of_decodeAll_none chunks ⟨"", ""⟩ m hd
        refine ⟨"json decode failed " ++ err, ?_⟩
        simp only [he]
      | some recs =>
        simp only [hd, Option.map_eq_none'] at h
        simp only [decodeLoop_of_decodeAll chunks _ m recs hd]
        exact ih _ h

theorem collect_of_inputRecords (w : World) (reduceName : String → Int → Int → String)
    (jobName : String) (reduceTask : Int) (nMap : Int) (fss : List (List KeyValue))
    (h : inputRecords w reduceName jobName reduceTask nMap = some fss) :
    collect w reduceName jobName reduceTask nMap =
      Except.ok (fss.flatten.foldl addKV []) :=
  collectFrom_of_readFiles w reduceName jobName reduceTask _ [] fss h

theorem inputRecords_of_collect (w : World) (reduceName : String → Int → Int → String)
    (jobName : String) (reduceTask : Int) (nMap : Int) (m : GoMap)
    (h : collect w reduceName jobName reduceTask nMap = Except.ok m) :
    ∃ fss, inputRecords w reduceName jobName reduceTask nMap = some fss := by
  cases hr : inputRecords w reduceName jobName reduceTask nMap with
  | some fss => exact ⟨fss, rfl⟩
  | none =>
    obtain ⟨msg, hm⟩ :=
      collectFrom_of_readFiles_none w reduceName jobName reduceTask _ [] hr
    have h' : collectFrom w reduceName jobName reduceTask (List.range nMap.toNat) [] =
        Except.ok m := h
    rw [hm] at h'
    cases h'

/-- A file that holds complete records only decodes to exactly these records. -/
theorem decodeAll_map_encodeKV (recs : List KeyValue) (kv : KeyValue) :
    decodeAll (recs.map encodeKV) kv = some recs := by
  induction recs generalizing kv with
  | nil => rfl
  | cons r rest ih =>
    simp only [List.map_cons, encodeKV, decodeAll, decodeInto, Option.getD_some, ih,
      Option.map_some']

/-! ## Sorting the keys -/

theorem strLess_iff (a b : String) : strLess a b = true ↔ a < b := by
  simp [strLess, String.lt_iff_toList_lt]

theorem strLess_eq_false_iff (a b : String) : strLess b a = false ↔ a ≤ b := by
  rw [← not_lt, ← strLess_iff]
  simp

theorem sortStrings_perm (keys : List String) : (sortStrings keys).Perm keys :=
  List.perm_insertionSort _ keys

theorem sortStrings_sorted (keys : List String) :
    (sortStrings keys).Sorted (fun a b => a ≤ b) := by
  have hrel : (fun a b : String => strLess b a = false) = (fun a b => a ≤ b) := by
    funext a b
    exact propext (strLess_eq_false_iff a b)
  have htotal : IsTotal String (fun a b => strLess b a = false) :=
    ⟨fun a b => by
      simp only [strLess_eq_false_iff]
      exact le_total a b⟩
  have htrans : IsTrans String (fun a b => strLess b a = false) :=
    ⟨fun a b c => by
      simp only [strLess_eq_false_iff]
      exact le_trans⟩
  have hs := List.sorted_insertionSort (fun a b : String => strLess b a = false) keys
  unfold sortStrings
  exact List.Pairwise.imp (fun {a b} hab => (strLess_eq_false_iff a b).mp hab) hs

theorem sortStrings_sorted_lt (keys : List String) (h : keys.Nodup) :
    (sortStrings keys).Sorted (fun a b => a < b) :=
  (sortStrings_sorted keys).lt_of_le ((sortStrings_perm keys).nodup_iff.mpr h)

theorem sortStrings_eq_of_perm (l₁ l₂ : List String) (h : l₁.Perm l₂) :
    sortStrings l₁ = sortStrings l₂ :=
  List.eq_of_perm_of_sorted
    (((sortStrings_perm l₁).trans h).trans (sortStrings_perm l₂).symm)
    (sortStrings_sorted l₁) (sortStrings_sorted l₂)

/-- The result of `sort.Strings` does not depend on the sorting algorithm: every
rearrangement of the keys that is in increasing order is the list `sortStrings`
returns. -/
theorem sortStrings_unique (keys sorted : List String) (hperm : sorted.Perm keys)
    (hsorted : sorted.Sorted (fun a b => a ≤ b)) : sorted = sortStrings keys :=
  List.eq_of_perm_of_sorted (hperm.trans (sortStrings_perm keys).symm) hsorted
    (sortStrings_sorted keys)

theorem mem_sortStrings (keys : List String) (k : String) :
    k ∈ sortStrings keys ↔ k ∈ keys :=
  (sortStrings_perm keys).mem_iff

/-! ## The emission loop -/

theorem calls_foldl_emitStep (w : World) (reduceF : String → List String → String)
    (m : GoMap) (keys : List String) (st : EmitState) :
    (keys.foldl (emitStep w reduceF m) st).calls =
      st.calls ++ keys.map (fun k => (k, m.get k)) := by
  induction keys generalizing st with
  | nil => simp
  | cons k rest ih =>
    rw [List.foldl_cons, ih]
    simp [emitStep]

/-- When no write fails, the destination receives one record per key. -/
theorem out_foldl_emitStep_of_writes (w : World)
    (reduceF : String → List String → String) (m : GoMap) (keys : List String)
    (st : EmitState) (he : st.enc.err = false) (hw : ∀ n, w.writeFails n = none) :
    (keys.foldl (emitStep w reduceF m) st).enc.out =
      st.enc.out ++ keys.map (fun k => encodeKV ⟨k, reduceF k (m.get k)⟩) := by
  induction keys generalizing st with
  | nil => simp
  | cons k rest ih =>
    rw [List.foldl_cons, ih]
    · simp [emitStep, Encoder.Encode, he, hw]
    · simp [emitStep, Encoder.Encode, he, hw]

/-! ## The three ways `doReduce` ends -/

theorem doReduce_of_collect_error (w : World) (ro : RangeOrder)
    (reduceName : String → Int → Int → String) (jobName : String) (reduceTask : Int)
    (outFile : String) (nMap : Int) (reduceF : String → List String → String)
    (msg : String) (h : collect w reduceName jobName reduceTask nMap = Except.error msg) :
    doReduce w ro reduceName jobName reduceTask outFile nMap reduceF =
      ⟨Outcome.fatal msg, w.files, []⟩ := by
  simp only [doReduce, h]

theorem doReduce_of_create_error (w : World) (ro : RangeOrder)
    (reduceName : String → Int → Int → String) (jobName : String) (reduceTask : Int)
    (outFile : String) (nMap : Int) (reduceF : String → List String → String)
    (m : GoMap) (h : collect w reduceName jobName reduceTask nMap = Except.ok m)
    (hc : w.createFails outFile = true) :
    doReduce w ro reduceName jobName reduceTask outFile nMap reduceF =
      ⟨Outcome.fatal ("Unable to create file: " ++ outFile), w.files, []⟩ := by
  simp only [doReduce, h, hc, if_true]

theorem doReduce_of_created (w : World) (ro : RangeOrder)
    (reduceName : String → Int → Int → String) (jobName : String) (reduceTask : Int)
    (outFile : String) (nMap : Int) (reduceF : String → List String → String)
    (m : GoMap) (h : collect w reduceName jobName reduceTask nMap = Except.ok m)
    (hc : w.createFails outFile = false) :
    doReduce w ro reduceName jobName reduceTask outFile nMap reduceF =
      ⟨Outcome.returned,
        Function.update w.files outFile (some
          ((sortStrings (ro.shuffle m.keys)).foldl (emitStep w reduceF m)
            ⟨⟨[], false, 0⟩, []⟩).enc.out),
        ((sortStrings (ro.shuffle m.keys)).foldl (emitStep w reduceF m)
            ⟨⟨[], false, 0⟩, []⟩).calls⟩ := by
  simp [doReduce, h, hc]

/-- The keys of the grouped mapping are pairwise distinct. -/
theorem collect_keys_nodup (w : World) (reduceName : String → Int → Int → String)
    (jobName : String) (reduceTask : Int) (nMap : Int) (m : GoMap)
    (h : collect w reduceName jobName reduceTask nMap = Except.ok m) :
    m.keys.Nodup := by
  obtain ⟨fss, hf⟩ := inputRecords_of_collect w reduceName jobName reduceTask nMap m h
  rw [collect_of_inputRecords w reduceName jobName reduceTask nMap fss hf] at h
  cases h
  exact nodup_keys_foldl_addKV _ [] List.nodup_nil

/-- The keys handed to the emission loop are strictly increasing. -/
theorem sorted_keys_of_collect (w : World) (ro : RangeOrder)
    (reduceName : String → Int → Int → String) (jobName : String) (reduceTask : Int)
    (nMap : Int) (m : GoMap)
    (h : collect w reduceName jobName reduceTask nMap = Except.ok m) :
    (sortStrings (ro.shuffle m.keys)).Sorted (fun a b => a < b) :=
  sortStrings_sorted_lt _
    ((ro.perm m.keys).nodup_iff.mpr
      (collect_keys_nodup w reduceName jobName reduceTask nMap m h))

/-- With all inputs read, the destination created and no failing write, the
destination holds one record per key of the grouped mapping, in increasing key
order, and `reduceF` was called once for each of these keys, in that order. -/
theorem doReduce_of_success (w : World) (ro : RangeOrder)
    (reduceName : String → Int → Int → String) (jobName : String) (reduceTask : Int)
    (outFile : String) (nMap : Int) (reduceF : String → List String → String)
    (fss : List (List KeyValue))
    (hread : inputRecords w reduceName jobName reduceTask nMap = some fss)
    (hcreate : w.createFails outFile = false) (hwrite : ∀ n, w.writeFails n = none) :
    doReduce w ro reduceName jobName reduceTask outFile nMap reduceF =
      ⟨Outcome.returned,
        Function.update w.files outFile (some
          ((sortStrings (ro.shuffle (fss.flatten.foldl addKV []).keys)).map
            (fun k => encodeKV ⟨k, reduceF k (valuesOf k fss.flatten)⟩))),
        (sortStrings (ro.shuffle (fss.flatten.foldl addKV []).keys)).map
            (fun k => (k, valuesOf k fss.flatten))⟩ := by
  have hc := collect_of_inputRecords w reduceName jobName reduceTask nMap fss hread
  rw [doReduce_of_created w ro reduceName jobName reduceTask outFile nMap reduceF _ hc
    hcreate]
  rw [out_foldl_emitStep_of_writes w reduceF _ _ _ rfl hwrite, calls_foldl_emitStep]
  simp [get_foldl_addKV, GoMap.get]

/-! ## Reading the input files -/

theorem readFiles_none_of_mem (w : World) (reduceName : String → Int → Int → String)
    (jobName : String) (reduceTask : Int) (idx : List Nat) (i : Nat) (hi : i ∈ idx)
    (hopen : w.files (reduceName jobName (i : Int) reduceTask) = none) :
    readFiles w reduceName jobName reduceTask idx = none := by
  induction idx with
  | nil => cases hi
  | cons j js ih =>
    simp only [readFiles]
    rcases List.mem_cons.mp hi with e | e
    · subst e
      simp only [hopen]
    · cases hf : w.files (reduceName jobName (j : Int) reduceTask) with
      | none => rfl
      | some chunks =>
        cases hd : decodeAll chunks ⟨"", ""⟩ with
        | none => simp only [hd]
        | some recs => simp only [hd, ih e, Option.map_none']

theorem mem_flatten_keys (fss : List (List KeyValue)) (k : String) :
    k ∈ keysOf fss.flatten ↔ ∃ fs ∈ fss, ∃ r ∈ fs, r.Key = k := by
  simp only [keysOf, List.mem_map, List.mem_flatten]
  constructor
  · rintro ⟨r, ⟨fs, hfs, hr⟩, rfl⟩
    exact ⟨fs, hfs, r, hr, rfl⟩
  · rintro ⟨fs, hfs, r, hr, rfl⟩
    exact ⟨r, ⟨fs, hfs, hr⟩, rfl⟩

theorem valuesOf_flatten (fss : List (List KeyValue)) (k : String) :
    valuesOf k fss.flatten = (fss.map (valuesOf k)).flatten := by
  induction fss with
  | nil => rfl
  | cons fs rest ih =>
    have happ : valuesOf k (fs ++ rest.flatten) = valuesOf k fs ++ valuesOf k rest.flatten := by
      simp [valuesOf]
    rw [List.flatten_cons, happ, ih, List.map_cons, List.flatten_cons]

theorem keysOf_map_record (ks : List String) (f : String → String) :
    keysOf (ks.map (fun k => (⟨k, f k⟩ : KeyValue))) = ks := by
  simp [keysOf, Function.comp_def]

/-! ## The settled properties -/

/-- C1: on a successful run (every input file opens and decodes, the
destination is created and no write fails) the records that `doReduce` writes
to the destination have strictly increasing keys under the lexicographic order
of strings, so no key is repeated. -/
theorem doReduce_output_strictly_increasing (w : World) (ro : RangeOrder)
    (reduceName : String → Int → Int → String) (jobName : String) (reduceTask : Int)
    (outFile : String) (nMap : Int) (reduceF : String → List String → String)
    (fss : List (List KeyValue))
    (hread : inputRecords w reduceName jobName reduceTask nMap = some fss)
    (hcreate : w.createFails outFile = false) (hwrite : ∀ n, w.writeFails n = none) :
    ∃ recs : List KeyValue,
      (doReduce w ro reduceName jobName reduceTask outFile nMap reduceF).files outFile =
        some (recs.map encodeKV) ∧
      (keysOf recs).Sorted (fun a b => a < b) ∧ (keysOf recs).Nodup := by
  have hc := collect_of_inputRecords w reduceName jobName reduceTask nMap fss hread
  have hs := sorted_keys_of_collect w ro reduceName jobName reduceTask nMap _ hc
  refine ⟨(sortStrings (ro.shuffle (fss.flatten.foldl addKV []).keys)).map
    (fun k => ⟨k, reduceF k (valuesOf k fss.flatten)⟩), ?_, ?_, ?_⟩
  · rw [doReduce_of_success w ro reduceName jobName reduceTask outFile nMap reduceF fss
      hread hcreate hwrite]
    simp only [Function.update_same, List.map_map]
    rfl
  · rw [keysOf_map_record _ (fun k => reduceF k (valuesOf k fss.flatten))]
    exact hs
  · rw [keysOf_map_record _ (fun k => reduceF k (valuesOf k fss.flatten))]
    exact List.Sorted.nodup hs

theorem doReduce_output_strictly_increasing_witness :
    inputRecords sampleWorld sampleName "job" 0 2 = some sampleRecords ∧
    sampleWorld.createFails "out" = false ∧
    (∀ n, sampleWorld.writeFails n = none) ∧
    ∃ recs : List KeyValue,
      (doReduce sampleWorld RangeOrder.reversed sampleName "job" 0 "out" 2 tally).files
          "out" = some (recs.map encodeKV) ∧
      (keysOf recs).Sorted (fun a b => a < b) ∧ (keysOf recs).Nodup :=
  ⟨by decide, by decide, fun _ => rfl,
    doReduce_output_strictly_increasing sampleWorld RangeOrder.reversed sampleName "job" 0
      "out" 2 tally sampleRecords (by decide) (by decide) (fun _ => rfl)⟩

/-- C2: on a successful run the keys of the output records are exactly the keys
that occur in the input records: a key is in the output if and only if some
record of some input file carries it, each such key is the key of exactly one
output record, and there are as many output records as distinct input keys. -/
theorem doReduce_output_keys_exact (w : World) (ro : RangeOrder)
    (reduceName : String → Int → Int → String) (jobName : String) (reduceTask : Int)
    (outFile : String) (nMap : Int) (reduceF : String → List String → String)
    (fss : List (List KeyValue))
    (hread : inputRecords w reduceName jobName reduceTask nMap = some fss)
    (hcreate : w.createFails outFile = false) (hwrite : ∀ n, w.writeFails n = none) :
    ∃ recs : List KeyValue,
      (doReduce w ro reduceName jobName reduceTask outFile nMap reduceF).files outFile =
        some (recs.map encodeKV) ∧
      (∀ k, k ∈ keysOf recs ↔ ∃ fs ∈ fss, ∃ r ∈ fs, r.Key = k) ∧
      (∀ k, (∃ fs ∈ fss, ∃ r ∈ fs, r.Key = k) → (keysOf recs).count k = 1) ∧
      recs.length = (keysOf fss.flatten).dedup.length := by
  have hm : ∀ k, k ∈ sortStrings (ro.shuffle (fss.flatten.foldl addKV []).keys) ↔
      ∃ fs ∈ fss, ∃ r ∈ fs, r.Key = k := by
    intro k
    rw [mem_sortStrings, (ro.perm _).mem_iff, mem_keys_foldl_addKV, ← mem_flatten_keys]
    simp [GoMap.keys]
  have hnd : (sortStrings (ro.shuffle (fss.flatten.foldl addKV []).keys)).Nodup :=
    (sortStrings_perm _).nodup_iff.mpr ((ro.perm _).nodup_iff.mpr
      (nodup_keys_foldl_addKV _ [] List.nodup_nil))
  refine ⟨(sortStrings (ro.shuffle (fss.flatten.foldl addKV []).keys)).map
    (fun k => ⟨k, reduceF k (valuesOf k fss.flatten)⟩), ?_, ?_, ?_, ?_⟩
  · rw [doReduce_of_success w ro reduceName jobName reduceTask outFile nMap reduceF fss
      hread hcreate hwrite]
    simp only [Function.update_same, List.map_map]
    rfl
  · intro k
    rw [keysOf_map_record _ (fun k => reduceF k (valuesOf k fss.flatten))]
    exact hm k
  · intro k hk
    rw [keysOf_map_record _ (fun k => reduceF k (valuesOf k fss.flatten))]
    exact List.count_eq_one_of_mem hnd ((hm k).mpr hk)
  · rw [List.length_map]
    apply List.Perm.length_eq
    apply (List.perm_ext_iff_of_nodup hnd (List.nodup_dedup _)).mpr
    intro k
    rw [hm k, List.mem_dedup, mem_flatten_keys]

theorem doReduce_output_keys_exact_witness :
    inputRecords sampleWorld sampleName "job" 0 2 = some sampleRecords ∧
    sampleWorld.createFails "out" = false ∧
    (∀ n, sampleWorld.writeFails n = none) ∧
    ∃ recs : List KeyValue,
      (doReduce sampleWorld RangeOrder.inserted sampleName "job" 0 "out" 2 tally).files
          "out" = some (recs.map encodeKV) ∧
      (∀ k, k ∈ keysOf recs ↔ ∃ fs ∈ sampleRecords, ∃ r ∈ fs, r.Key = k) ∧
      (∀ k, (∃ fs ∈ sampleRecords, ∃ r ∈ fs, r.Key = k) → (keysOf recs).count k = 1) ∧
      recs.length = (keysOf sampleRecords.flatten).dedup.length :=
  ⟨by decide, by decide, fun _ => rfl,
    doReduce_output_keys_exact sampleWorld RangeOrder.inserted sampleName "job" 0 "out" 2
      tally sampleRecords (by decide) (by decide) (fun _ => rfl)⟩

/-- C3: after the collection loop over input files that all open and decode,
the value sequence stored for a key in the grouped mapping is, as a multiset,
the sum over the files of the values of the records with that key (duplicates
kept); its length is the number of such records summed over the files, and a
key is present in the mapping exactly when some record carries it. -/
theorem collect_groups_all_values (w : World)
    (reduceName : String → Int → Int → String) (jobName : String) (reduceTask : Int)
    (nMap : Int) (fss : List (List KeyValue))
    (hread : inputRecords w reduceName jobName reduceTask nMap = some fss) :
    ∃ m : GoMap, collect w reduceName jobName reduceTask nMap = Except.ok m ∧
      ∀ k : String,
        ((m.get k : List String) : Multiset String) =
          (fss.map (fun fs => ((valuesOf k fs : List String) : Multiset String))).sum ∧
        (m.get k).length =
          (fss.map (fun fs => (fs.filter (fun r => decide (r.Key = k))).length)).sum ∧
        (k ∈ m.keys ↔ ∃ fs ∈ fss, ∃ r ∈ fs, r.Key = k) := by
  refine ⟨fss.flatten.foldl addKV [],
    collect_of_inputRecords w reduceName jobName reduceTask nMap fss hread, ?_⟩
  intro k
  have hget : (fss.flatten.foldl addKV []).get k = (fss.map (valuesOf k)).flatten := by
    rw [get_foldl_addKV, valuesOf_flatten]
    simp [GoMap.get]
  refine ⟨?_, ?_, ?_⟩
  · rw [hget]
    clear hget hread
    induction fss with
    | nil => rfl
    | cons fs rest ih =>
      rw [List.map_cons, List.flatten_cons, List.map_cons, List.sum_cons, ← ih]
      rfl
  · rw [hget]
    clear hget hread
    induction fss with
    | nil => rfl
    | cons fs rest ih =>
      rw [List.map_cons, List.flatten_cons, List.length_append, List.map_cons,
        List.sum_cons, ih]
      simp [valuesOf]
  · rw [mem_keys_foldl_addKV, ← mem_flatten_keys]
    simp [GoMap.keys]

theorem collect_groups_all_values_witness :
    inputRecords sampleWorld sampleName "job" 0 2 = some sampleRecords ∧
    ∃ m : GoMap, collect sampleWorld sampleName "job" 0 2 = Except.ok m ∧
      ∀ k : String,
        ((m.get k : List String) : Multiset String) =
          (sampleRecords.map
            (fun fs => ((valuesOf k fs : List String) : Multiset String))).sum ∧
        (m.get k).length =
          (sampleRecords.map
            (fun fs => (fs.filter (fun r => decide (r.Key = k))).length)).sum ∧
        (k ∈ m.keys ↔ ∃ fs ∈ sampleRecords, ∃ r ∈ fs, r.Key = k) :=
  ⟨by decide,
    collect_groups_all_values sampleWorld sampleName "job" 0 2 sampleRecords (by decide)⟩

/-- C4: on a successful run the output is exactly the list of records
`(k, reduceF(k, vals_k))` over the strictly increasing list of the distinct
input keys, where `vals_k` is the value sequence that the grouped mapping holds
for `k` (all values of the records with key `k`); `reduceF` is called exactly
once for each of these keys, in that order, with the key and `vals_k`. -/
theorem doReduce_applies_reduceF (w : World) (ro : RangeOrder)
    (reduceName : String → Int → Int → String) (jobName : String) (reduceTask : Int)
    (outFile : String) (nMap : Int) (reduceF : String → List String → String)
    (fss : List (List KeyValue))
    (hread : inputRecords w reduceName jobName reduceTask nMap = some fss)
    (hcreate : w.createFails outFile = false) (hwrite : ∀ n, w.writeFails n = none) :
    ∃ (m : GoMap) (ks : List String),
      collect w reduceName jobName reduceTask nMap = Except.ok m ∧
      ks.Sorted (fun a b => a < b) ∧
      (∀ k, k ∈ ks ↔ ∃ fs ∈ fss, ∃ r ∈ fs, r.Key = k) ∧
      (∀ k, (m.get k).Perm (valuesOf k fss.flatten)) ∧
      (doReduce w ro reduceName jobName reduceTask outFile nMap reduceF).outcome =
        Outcome.returned ∧
      (doReduce w ro reduceName jobName reduceTask outFile nMap reduceF).files outFile =
        some (ks.map (fun k => encodeKV ⟨k, reduceF k (m.get k)⟩)) ∧
      (doReduce w ro reduceName jobName reduceTask outFile nMap reduceF).calls =
        ks.map (fun k => (k, m.get k)) := by
  have hc := collect_of_inputRecords w reduceName jobName reduceTask nMap fss hread
  refine ⟨fss.flatten.foldl addKV [],
    sortStrings (ro.shuffle (fss.flatten.foldl addKV []).keys), hc,
    sorted_keys_of_collect w ro reduceName jobName reduceTask nMap _ hc, ?_, ?_, ?_, ?_, ?_⟩
  · intro k
    rw [mem_sortStrings, (ro.perm _).mem_iff, mem_keys_foldl_addKV, ← mem_flatten_keys]
    simp [GoMap.keys]
  · intro k
    rw [get_foldl_addKV]
    simp [GoMap.get]
  · rw [doReduce_of_created w ro reduceName jobName reduceTask outFile nMap reduceF _ hc
      hcreate]
  · rw [doReduce_of_created w ro reduceName jobName reduceTask outFile nMap reduceF _ hc
      hcreate]
    simp only [Function.update_same]
    rw [out_foldl_emitStep_of_writes w reduceF _ _ _ rfl hwrite]
    rfl
  · rw [doReduce_of_created w ro reduceName jobName reduceTask outFile nMap reduceF _ hc
      hcreate]
    simp only [calls_foldl_emitStep, List.nil_append]

theorem doReduce_applies_reduceF_witness :
    inputRecords sampleWorld sampleName "job" 0 2 = some sampleRecords ∧
    sampleWorld.createFails "out" = false ∧
    (∀ n, sampleWorld.writeFails n = none) ∧
    ∃ (m : GoMap) (ks : List String),
      collect sampleWorld sampleName "job" 0 2 = Except.ok m ∧
      ks.Sorted (fun a b => a < b) ∧
      (∀ k, k ∈ ks ↔ ∃ fs ∈ sampleRecords, ∃ r ∈ fs, r.Key = k) ∧
      (∀ k, (m.get k).Perm (valuesOf k sampleRecords.flatten)) ∧
      (doReduce sampleWorld RangeOrder.reversed sampleName "job" 0 "out" 2 tally).outcome =
        Outcome.returned ∧
      (doReduce sampleWorld RangeOrder.reversed sampleName "job" 0 "out" 2 tally).files
          "out" = some (ks.map (fun k => encodeKV ⟨k, tally k (m.get k)⟩)) ∧
      (doReduce sampleWorld RangeOrder.reversed sampleName "job" 0 "out" 2 tally).calls =
        ks.map (fun k => (k, m.get k)) :=
  ⟨by decide, by decide, fun _ => rfl,
    doReduce_applies_reduceF sampleWorld RangeOrder.reversed sampleName "job" 0 "out" 2
      tally sampleRecords (by decide) (by decide) (fun _ => rfl)⟩

/-- C5: if the intermediate file of some map task `i` with `0 ≤ i < nMap` cannot
be opened, `doReduce` ends in `log.Fatal`, leaves every file as it was (the
destination is neither created nor truncated nor written) and never calls
`reduceF`, whatever the other input files hold. -/
theorem doReduce_fatal_on_unopenable_input (w : World) (ro : RangeOrder)
    (reduceName : String → Int → Int → String) (jobName : String) (reduceTask : Int)
    (outFile : String) (nMap : Int) (reduceF : String → List String → String)
    (i : Int) (hlo : 0 ≤ i) (hhi : i < nMap)
    (hopen : w.files (reduceName jobName i reduceTask) = none) :
    (doReduce w ro reduceName jobName reduceTask outFile nMap reduceF).outcome.failed =
        true ∧
      (doReduce w ro reduceName jobName reduceTask outFile nMap reduceF).files = w.files ∧
      (doReduce w ro reduceName jobName reduceTask outFile nMap reduceF).calls = [] := by
  have hi : i.toNat ∈ List.range nMap.toNat := by
    rw [List.mem_range]
    omega
  have hcast : ((i.toNat : Nat) : Int) = i := Int.toNat_of_nonneg hlo
  have hnone : inputRecords w reduceName jobName reduceTask nMap = none :=
    readFiles_none_of_mem w reduceName jobName reduceTask _ i.toNat hi (by rw [hcast]; exact hopen)
  obtain ⟨msg, hmsg⟩ :=
    collectFrom_of_readFiles_none w reduceName jobName reduceTask _ [] hnone
  rw [doReduce_of_collect_error w ro reduceName jobName reduceTask outFile nMap reduceF msg
    hmsg]
  exact ⟨rfl, rfl, rfl⟩

theorem doReduce_fatal_on_unopenable_input_witness :
    (0 : Int) ≤ 2 ∧ (2 : Int) < 3 ∧ sampleWorld.files (sampleName "job" 2 0) = none ∧
    (doReduce sampleWorld RangeOrder.inserted sampleName "job" 0 "out" 3 tally).outcome.failed
        = true ∧
      (doReduce sampleWorld RangeOrder.inserted sampleName "job" 0 "out" 3 tally).files =
        sampleWorld.files ∧
      (doReduce sampleWorld RangeOrder.inserted sampleName "job" 0 "out" 3 tally).calls = [] :=
  ⟨by decide, by decide, by decide,
    doReduce_fatal_on_unopenable_input sampleWorld RangeOrder.inserted sampleName "job" 0
      "out" 3 tally 2 (by decide) (by decide) (by decide)⟩

theorem valuesOf_perm (k : String) (l₁ l₂ : List KeyValue) (h : l₁.Perm l₂) :
    (valuesOf k l₁).Perm (valuesOf k l₂) :=
  (h.filter _).map _

theorem tally_orderInsensitive : OrderInsensitive tally := by
  intro k vs vs' h
  simp only [tally, h.length_eq]

/-- C6: for a reduce function that does not depend on the order of its values,
two runs whose input files open and decode, and whose lists of input files are
permutations of each other, leave the same record sequence in the destination. -/
theorem doReduce_file_order_irrelevant (w w' : World) (ro ro' : RangeOrder)
    (reduceName : String → Int → Int → String) (jobName : String) (reduceTask : Int)
    (outFile : String) (nMap : Int) (reduceF : String → List String → String)
    (fss fss' : List (List KeyValue)) (hins : OrderInsensitive reduceF)
    (hread : inputRecords w reduceName jobName reduceTask nMap = some fss)
    (hread' : inputRecords w' reduceName jobName reduceTask nMap = some fss')
    (hperm : fss'.Perm fss)
    (hcreate : w.createFails outFile = false) (hwrite : ∀ n, w.writeFails n = none)
    (hcreate' : w'.createFails outFile = false) (hwrite' : ∀ n, w'.writeFails n = none) :
    (doReduce w' ro' reduceName jobName reduceTask outFile nMap reduceF).files outFile =
      (doReduce w ro reduceName jobName reduceTask outFile nMap reduceF).files outFile := by
  rw [doReduce_of_success w ro reduceName jobName reduceTask outFile nMap reduceF fss
      hread hcreate hwrite,
    doReduce_of_success w' ro' reduceName jobName reduceTask outFile nMap reduceF fss'
      hread' hcreate' hwrite']
  simp only [Function.update_same]
  have hflat : fss'.flatten.Perm fss.flatten := hperm.flatten
  have hkeys : sortStrings (ro'.shuffle (fss'.flatten.foldl addKV []).keys) =
      sortStrings (ro.shuffle (fss.flatten.foldl addKV []).keys) := by
    apply sortStrings_eq_of_perm
    refine ((ro'.perm _).trans ?_).trans (ro.perm _).symm
    apply (List.perm_ext_iff_of_nodup (nodup_keys_foldl_addKV _ [] List.nodup_nil)
      (nodup_keys_foldl_addKV _ [] List.nodup_nil)).mpr
    intro k
    rw [mem_keys_foldl_addKV, mem_keys_foldl_addKV]
    simp only [keysOf]
    rw [(hflat.map KeyValue.Key).mem_iff]
  rw [hkeys]
  congr 1
  apply List.map_congr_left
  intro k _
  rw [hins k _ _ (valuesOf_perm k _ _ hflat)]

theorem doReduce_file_order_irrelevant_witness :
    OrderInsensitive tally ∧
    inputRecords sampleWorld sampleName "job" 0 2 = some sampleRecords ∧
    inputRecords swappedWorld sampleName "job" 0 2 = some sampleRecords.reverse ∧
    sampleRecords.reverse.Perm sampleRecords ∧
    sampleWorld.createFails "out" = false ∧ (∀ n, sampleWorld.writeFails n = none) ∧
    swappedWorld.createFails "out" = false ∧ (∀ n, swappedWorld.writeFails n = none) ∧
    (doReduce swappedWorld RangeOrder.reversed sampleName "job" 0 "out" 2 tally).files "out" =
      (doReduce sampleWorld RangeOrder.inserted sampleName "job" 0 "out" 2 tally).files
        "out" :=
  ⟨tally_orderInsensitive, by decide, by decide, List.reverse_perm _,
    by decide, fun _ => rfl, by decide, fun _ => rfl,
    doReduce_file_order_irrelevant sampleWorld swappedWorld RangeOrder.inserted
      RangeOrder.reversed sampleName "job" 0 "out" 2 tally sampleRecords
      sampleRecords.reverse tally_orderInsensitive (by decide) (by decide)
      (List.reverse_perm _) (by decide) (fun _ => rfl) (by decide) (fun _ => rfl)⟩

/-- A `Decode` call that returns an error ends the run in `log.Fatal`, with
every file left as it was and no call of `reduceF`. -/
theorem doReduce_fatal_of_read_failure (w : World) (ro : RangeOrder)
    (reduceName : String → Int → Int → String) (jobName : String) (reduceTask : Int)
    (outFile : String) (nMap : Int) (reduceF : String → List String → String)
    (h : inputRecords w reduceName jobName reduceTask nMap = none) :
    (doReduce w ro reduceName jobName reduceTask outFile nMap reduceF).outcome.failed =
        true ∧
      (doReduce w ro reduceName jobName reduceTask outFile nMap reduceF).files = w.files ∧
      (doReduce w ro reduceName jobName reduceTask outFile nMap reduceF).calls = [] := by
  obtain ⟨msg, hmsg⟩ :=
    collectFrom_of_readFiles_none w reduceName jobName reduceTask _ [] h
  rw [doReduce_of_collect_error w ro reduceName jobName reduceTask outFile nMap reduceF msg
    hmsg]
  exact ⟨rfl, rfl, rfl⟩

/-- C7 (evaluation at the failing input): the single input file holds a complete
record for `a`, a stray closing bracket and a truncated record; since
`dec.More()` reports `false` at the bracket, `doReduce` stops reading there,
never decodes the truncated record, returns normally and leaves an output
built from the first record alone. -/
theorem doReduce_stops_at_stray_closer :
    strayCloserWorld.files (sampleName "job" 0 0) =
        some [encodeKV ⟨"a", "1"⟩, Chunk.closer, Chunk.invalid "unexpected EOF"] ∧
      (doReduce strayCloserWorld RangeOrder.inserted sampleName "job" 0 "out" 1
        tally).outcome = Outcome.returned ∧
      (doReduce strayCloserWorld RangeOrder.inserted sampleName "job" 0 "out" 1
        tally).files "out" = some [encodeKV ⟨"a", "1"⟩] := by
  decide

/-- A failure of `os.Create` ends the run in `log.Fatal`, with every file left
as it was and no call of `reduceF`. -/
theorem doReduce_fatal_of_create_failure (w : World) (ro : RangeOrder)
    (reduceName : String → Int → Int → String) (jobName : String) (reduceTask : Int)
    (outFile : String) (nMap : Int) (reduceF : String → List String → String)
    (h : w.createFails outFile = true) :
    (doReduce w ro reduceName jobName reduceTask outFile nMap reduceF).outcome.failed =
        true ∧
      (doReduce w ro reduceName jobName reduceTask outFile nMap reduceF).files = w.files ∧
      (doReduce w ro reduceName jobName reduceTask outFile nMap reduceF).calls = [] := by
  cases hc : collect w reduceName jobName reduceTask nMap with
  | error msg =>
    rw [doReduce_of_collect_error w ro reduceName jobName reduceTask outFile nMap reduceF
      msg hc]
    exact ⟨rfl, rfl, rfl⟩
  | ok m =>
    rw [doReduce_of_create_error w ro reduceName jobName reduceTask outFile nMap reduceF
      m hc h]
    exact ⟨rfl, rfl, rfl⟩

/-- C8 (evaluation at the failing input): the write of the second output
record fails and `enc.Encode` reports the error, yet `doReduce` goes on,
having called `reduceF` for both keys, and returns normally, leaving a
destination that holds the first record followed by a torn one. -/
theorem doReduce_returns_after_failed_write :
    (Encoder.Encode failingWriteWorld ⟨[encodeKV ⟨"a", "1"⟩], false, 1⟩ ⟨"b", "1"⟩).2 =
        true ∧
      (doReduce failingWriteWorld RangeOrder.inserted sampleName "job" 0 "out" 1
        tally).outcome = Outcome.returned ∧
      (doReduce failingWriteWorld RangeOrder.inserted sampleName "job" 0 "out" 1
        tally).calls = [("a", ["1"]), ("b", ["1"])] ∧
      (doReduce failingWriteWorld RangeOrder.inserted sampleName "job" 0 "out" 1
        tally).files "out" = some [encodeKV ⟨"a", "1"⟩, Chunk.invalid "unexpected EOF"] := by
  decide

/-- C9: two successful runs on the same input records leave the same content
in the destination, whatever the destination held before each run and whatever
order the Go map is ranged over in; in particular a second run on the files
left by a first run, when it reads the same inputs, leaves the destination as
the first run left it. -/
theorem doReduce_output_independent_of_prior (w w' : World) (ro ro' : RangeOrder)
    (reduceName : String → Int → Int → String) (jobName : String) (reduceTask : Int)
    (outFile : String) (nMap : Int) (reduceF : String → List String → String)
    (fss : List (List KeyValue))
    (hread : inputRecords w reduceName jobName reduceTask nMap = some fss)
    (hread' : inputRecords w' reduceName jobName reduceTask nMap = some fss)
    (hcreate : w.createFails outFile = false) (hwrite : ∀ n, w.writeFails n = none)
    (hcreate' : w'.createFails outFile = false) (hwrite' : ∀ n, w'.writeFails n = none) :
    (doReduce w' ro' reduceName jobName reduceTask outFile nMap reduceF).outcome =
        Outcome.returned ∧
      (doReduce w ro reduceName jobName reduceTask outFile nMap reduceF).outcome =
        Outcome.returned ∧
      (doReduce w' ro' reduceName jobName reduceTask outFile nMap reduceF).files outFile =
        (doReduce w ro reduceName jobName reduceTask outFile nMap reduceF).files outFile := by
  rw [doReduce_of_success w ro reduceName jobName reduceTask outFile nMap reduceF fss
      hread hcreate hwrite,
    doReduce_of_success w' ro' reduceName jobName reduceTask outFile nMap reduceF fss
      hread' hcreate' hwrite']
  refine ⟨rfl, rfl, ?_⟩
  simp only [Function.update_same]
  rw [sortStrings_eq_of_perm _ _ ((ro'.perm _).trans (ro.perm _).symm)]

theorem doReduce_output_independent_of_prior_witness :
    inputRecords sampleWorld sampleName "job" 0 2 = some sampleRecords ∧
    inputRecords sampleWorldAfterRun sampleName "job" 0 2 = some sampleRecords ∧
    sampleWorld.createFails "out" = false ∧ (∀ n, sampleWorld.writeFails n = none) ∧
    sampleWorldAfterRun.createFails "out" = false ∧
    (∀ n, sampleWorldAfterRun.writeFails n = none) ∧
    (doReduce sampleWorldAfterRun RangeOrder.reversed sampleName "job" 0 "out" 2
        tally).outcome = Outcome.returned ∧
      (doReduce sampleWorld RangeOrder.inserted sampleName "job" 0 "out" 2
        tally).outcome = Outcome.returned ∧
      (doReduce sampleWorldAfterRun RangeOrder.reversed sampleName "job" 0 "out" 2
        tally).files "out" =
        (doReduce sampleWorld RangeOrder.inserted sampleName "job" 0 "out" 2
          tally).files "out" :=
  ⟨by decide, by decide, by decide, fun _ => rfl, by decide, fun _ => rfl,
    doReduce_output_independent_of_prior sampleWorld sampleWorldAfterRun
      RangeOrder.inserted RangeOrder.reversed sampleName "job" 0 "out" 2 tally
      sampleRecords (by decide) (by decide) (by decide) (fun _ => rfl) (by decide)
      (fun _ => rfl)⟩

/-- C10 (counterexample): with `nMap = 0` and a destination that can be
created, `doReduce` returns normally and leaves an empty output file. -/
theorem doReduce_zero_maps_returns :
    (doReduce sampleWorld RangeOrder.inserted sampleName "job" 0 "out" 0 tally).outcome =
        Outcome.returned ∧
      (doReduce sampleWorld RangeOrder.inserted sampleName "job" 0 "out" 0 tally).files
        "out" = some [] := by
  decide

/-- C10 (amended): with `nMap = 0`, `doReduce` opens no input file and never
calls `reduceF`; it ends in `log.Fatal` only when the destination cannot be
created, and otherwise returns normally, leaving an empty destination. -/
theorem doReduce_zero_maps (w : World) (ro : RangeOrder)
    (reduceName : String → Int → Int → String) (jobName : String) (reduceTask : Int)
    (outFile : String) (reduceF : String → List String → String) :
    doReduce w ro reduceName jobName reduceTask outFile 0 reduceF =
      if w.createFails outFile then
        ⟨Outcome.fatal ("Unable to create file: " ++ outFile), w.files, []⟩
      else ⟨Outcome.returned, Function.update w.files outFile (some []), []⟩ := by
  have hc : collect w reduceName jobName reduceTask 0 = Except.ok [] := rfl
  have hs : sortStrings (ro.shuffle (GoMap.keys [])) = [] := by
    have hnil : ro.shuffle (GoMap.keys []) = [] := List.Perm.eq_nil (ro.perm _)
    rw [hnil]
    rfl
  by_cases h : w.createFails outFile = true
  · rw [doReduce_of_create_error w ro reduceName jobName reduceTask outFile 0 reduceF
      [] hc h, if_pos h]
  · have h' : w.createFails outFile = false := by simpa using h
    rw [doReduce_of_created w ro reduceName jobName reduceTask outFile 0 reduceF [] hc h',
      hs]
    simp [h']

/-- C11 (counterexample): when the destination is named like the intermediate
file of map task 0, a successful run overwrites that input file. -/
theorem doReduce_overwrites_aliased_input :
    sampleName "job" 0 0 = "in0" ∧
      (doReduce aliasWorld RangeOrder.inserted sampleName "job" 0 "in0" 1 tally).files
        (sampleName "job" 0 0) = some [encodeKV ⟨"a", "11"⟩] ∧
      (doReduce aliasWorld RangeOrder.inserted sampleName "job" 0 "in0" 1 tally).files
        (sampleName "job" 0 0) ≠ aliasWorld.files (sampleName "job" 0 0) := by
  decide

/-- C11 (amended): after any invocation, successful or failed, every file whose
name differs from `outFile` has exactly the content it had before, so an
intermediate file is left unchanged unless it is named `outFile`; a failed
invocation changes no file at all. -/
theorem doReduce_changes_only_outFile (w : World) (ro : RangeOrder)
    (reduceName : String → Int → Int → String) (jobName : String) (reduceTask : Int)
    (outFile : String) (nMap : Int) (reduceF : String → List String → String)
    (name : String) (hname : name ≠ outFile) :
    (doReduce w ro reduceName jobName reduceTask outFile nMap reduceF).files name =
        w.files name ∧
      ((doReduce w ro reduceName jobName reduceTask outFile nMap reduceF).outcome.failed =
          true →
        (doReduce w ro reduceName jobName reduceTask outFile nMap reduceF).files =
          w.files) := by
  cases hc : collect w reduceName jobName reduceTask nMap with
  | error msg =>
    rw [doReduce_of_collect_error w ro reduceName jobName reduceTask outFile nMap reduceF
      msg hc]
    exact ⟨rfl, fun _ => rfl⟩
  | ok m =>
    by_cases h : w.createFails outFile = true
    · rw [doReduce_of_create_error w ro reduceName jobName reduceTask outFile nMap
        reduceF m hc h]
      exact ⟨rfl, fun _ => rfl⟩
    · have h' : w.createFails outFile = false := by simpa using h
      rw [doReduce_of_created w ro reduceName jobName reduceTask outFile nMap reduceF m hc
        h']
      refine ⟨Function.update_noteq hname _ _, ?_⟩
      intro hfail
      simp [Outcome.failed] at hfail

theorem doReduce_changes_only_outFile_witness :
    sampleName "job" 1 0 ≠ "out" ∧
    (doReduce sampleWorld RangeOrder.inserted sampleName "job" 0 "out" 2 tally).files
        (sampleName "job" 1 0) = sampleWorld.files (sampleName "job" 1 0) ∧
      ((doReduce sampleWorld RangeOrder.inserted sampleName "job" 0 "out" 2
          tally).outcome.failed = true →
        (doReduce sampleWorld RangeOrder.inserted sampleName "job" 0 "out" 2 tally).files =
          sampleWorld.files) :=
  ⟨by decide,
    doReduce_changes_only_outFile sampleWorld RangeOrder.inserted sampleName "job" 0 "out"
      2 tally (sampleName "job" 1 0) (by decide)⟩

/-- C12: in the example of the specification (file 0 holds `cat`, `dog`, file 1
holds `cat`, `ant`, all with value `1`, and the reduce function sums), the
grouped mapping is `cat: [1, 1]`, `dog: [1]`, `ant: [1]` and the output is
exactly `(ant, 1)`, `(cat, 2)`, `(dog, 1)`, whatever order the map is ranged
over in. -/
theorem doReduce_spec_example (ro : RangeOrder) :
    sampleWorld.files (sampleName "job" 0 0) =
        some [encodeKV ⟨"cat", "1"⟩, encodeKV ⟨"dog", "1"⟩] ∧
      sampleWorld.files (sampleName "job" 1 0) =
        some [encodeKV ⟨"cat", "1"⟩, encodeKV ⟨"ant", "1"⟩] ∧
      collect sampleWorld sampleName "job" 0 2 =
        Except.ok [("cat", ["1", "1"]), ("dog", ["1"]), ("ant", ["1"])] ∧
      (doReduce sampleWorld ro sampleName "job" 0 "out" 2 sumReduce).outcome =
        Outcome.returned ∧
      (doReduce sampleWorld ro sampleName "job" 0 "out" 2 sumReduce).files "out" =
        some [encodeKV ⟨"ant", "1"⟩, encodeKV ⟨"cat", "2"⟩, encodeKV ⟨"dog", "1"⟩] := by
  have hread : inputRecords sampleWorld sampleName "job" 0 2 = some sampleRecords := by
    decide
  have hkeys : sortStrings (ro.shuffle (sampleRecords.flatten.foldl addKV []).keys) =
      sortStrings (sampleRecords.flatten.foldl addKV []).keys :=
    sortStrings_eq_of_perm _ _ (ro.perm _)
  rw [doReduce_of_success sampleWorld ro sampleName "job" 0 "out" 2 sumReduce
    sampleRecords hread (by decide) (fun _ => rfl), hkeys]
  exact ⟨by decide, by decide, rfl, rfl, by decide⟩

theorem filter_key_map_of_not_mem (ks : List String) (f : String → String) (k : String)
    (hk : k ∉ ks) :
    (ks.map (fun a => (⟨a, f a⟩ : KeyValue))).filter (fun r => decide (r.Key = k)) = [] := by
  induction ks with
  | nil => rfl
  | cons a rest ih =>
    have ha : ¬ a = k := fun e => hk (by simp [e])
    have hr : k ∉ rest := fun e => hk (List.mem_cons_of_mem _ e)
    simp [List.filter_cons, ha, ih hr]

/-- Among the records built from pairwise distinct keys, exactly one carries a
given key of the list. -/
theorem filter_key_map_of_mem (ks : List String) (f : String → String) (k : String)
    (hnd : ks.Nodup) (hk : k ∈ ks) :
    (ks.map (fun a => (⟨a, f a⟩ : KeyValue))).filter (fun r => decide (r.Key = k)) =
      [⟨k, f k⟩] := by
  induction ks with
  | nil => cases hk
  | cons a rest ih =>
    rw [List.nodup_cons] at hnd
    by_cases ha : a = k
    · subst ha
      simp [List.filter_cons, filter_key_map_of_not_mem rest f a hnd.1]
    · have hr : k ∈ rest := by
        rcases List.mem_cons.mp hk with e | e
        · exact absurd e.symm ha
        · exact e
      simp [List.filter_cons, ha, ih hnd.2 hr]

/-- C13: when exactly five input records in total carry the key `the`, each with
value `1`, however they are spread over the input files and whatever other
keys occur, a successful run with the summing reduce function leaves exactly
one output record with key `the`, and its value is `5`. -/
theorem doReduce_word_count (w : World) (ro : RangeOrder)
    (reduceName : String → Int → Int → String) (jobName : String) (reduceTask : Int)
    (outFile : String) (nMap : Int) (fss : List (List KeyValue))
    (hread : inputRecords w reduceName jobName reduceTask nMap = some fss)
    (hcreate : w.createFails outFile = false) (hwrite : ∀ n, w.writeFails n = none)
    (hfive : (fss.flatten.filter (fun r => decide (r.Key = "the"))).length = 5)
    (hones : ∀ r ∈ fss.flatten, r.Key = "the" → r.Value = "1") :
    ∃ recs : List KeyValue,
      (doReduce w ro reduceName jobName reduceTask outFile nMap sumReduce).files outFile =
        some (recs.map encodeKV) ∧
      recs.filter (fun r => decide (r.Key = "the")) = [⟨"the", "5"⟩] := by
  have hvals : valuesOf "the" fss.flatten = List.replicate 5 "1" := by
    rw [List.eq_replicate_iff]
    refine ⟨by rw [valuesOf, List.length_map]; exact hfive, ?_⟩
    intro v hv
    simp only [valuesOf, List.mem_map, List.mem_filter, decide_eq_true_eq] at hv
    obtain ⟨r, ⟨hr, hkey⟩, rfl⟩ := hv
    exact hones r hr hkey
  have hmem : "the" ∈ sortStrings (ro.shuffle (fss.flatten.foldl addKV []).keys) := by
    rw [mem_sortStrings, (ro.perm _).mem_iff, mem_keys_foldl_addKV]
    right
    have hpos : 0 < (fss.flatten.filter (fun r => decide (r.Key = "the"))).length := by
      omega
    obtain ⟨r, hr⟩ := List.exists_mem_of_length_pos hpos
    simp only [List.mem_filter, decide_eq_true_eq] at hr
    exact List.mem_map.mpr ⟨r, hr.1, hr.2⟩
  have hnd : (sortStrings (ro.shuffle (fss.flatten.foldl addKV []).keys)).Nodup :=
    (sortStrings_perm _).nodup_iff.mpr ((ro.perm _).nodup_iff.mpr
      (nodup_keys_foldl_addKV _ [] List.nodup_nil))
  refine ⟨(sortStrings (ro.shuffle (fss.flatten.foldl addKV []).keys)).map
    (fun k => ⟨k, sumReduce k (valuesOf k fss.flatten)⟩), ?_, ?_⟩
  · rw [doReduce_of_success w ro reduceName jobName reduceTask outFile nMap sumReduce fss
      hread hcreate hwrite]
    simp only [Function.update_same, List.map_map]
    rfl
  · rw [filter_key_map_of_mem _ (fun k => sumReduce k (valuesOf k fss.flatten)) "the" hnd
      hmem, hvals]
    decide

theorem doReduce_word_count_witness :
    inputRecords wordCountWorld sampleName "job" 0 2 = some wordCountRecords ∧
    wordCountWorld.createFails "out" = false ∧
    (∀ n, wordCountWorld.writeFails n = none) ∧
    (wordCountRecords.flatten.filter (fun r => decide (r.Key = "the"))).length = 5 ∧
    (∀ r ∈ wordCountRecords.flatten, r.Key = "the" → r.Value = "1") ∧
    ∃ recs : List KeyValue,
      (doReduce wordCountWorld RangeOrder.reversed sampleName "job" 0 "out" 2
        sumReduce).files "out" = some (recs.map encodeKV) ∧
      recs.filter (fun r => decide (r.Key = "the")) = [⟨"the", "5"⟩] :=
  ⟨by decide, by decide, fun _ => rfl, by decide, by decide,
    doReduce_word_count wordCountWorld RangeOrder.reversed sampleName "job" 0 "out" 2
      wordCountRecords (by decide) (by decide) (fun _ => rfl) (by decide) (by decide)⟩

/-- Input files that hold complete records only decode to these records. -/
theorem readFiles_of_complete (w : World) (reduceName : String → Int → Int → String)
    (jobName : String) (reduceTask : Int) (idx : List Nat) (fss : List (List KeyValue))
    (h : idx.map (fun (i : Nat) => w.files (reduceName jobName (i : Int) reduceTask)) =
      fss.map (fun fs => some (fs.map encodeKV))) :
    readFiles w reduceName jobName reduceTask idx = some fss := by
  induction idx generalizing fss with
  | nil =>
    cases fss with
    | nil => rfl
    | cons fs rest => simp at h
  | cons i is ih =>
    cases fss with
    | nil => simp at h
    | cons fs rest =>
      simp only [List.map_cons, List.cons.injEq] at h
      simp only [readFiles, h.1, decodeAll_map_encodeKV, ih rest h.2, Option.map_some']

/-- C14 (counterexample): the first file holds the record `(a, 1)` and the
second a record for `b` without `Value` field; run on the two files, `doReduce`
outputs the empty value for `b`, but run on the single file that holds the
first content followed by the second it outputs the value `1` for `b`. -/
theorem doReduce_differs_on_concatenated_file :
    inputContents splitOmittedWorld sampleName "job" 0 2 =
        [some [encodeKV ⟨"a", "1"⟩], some [Chunk.object (some "b") none]] ∧
      inputContents omittedValueWorld sampleName "job" 0 1 =
        [some ([encodeKV ⟨"a", "1"⟩] ++ [Chunk.object (some "b") none])] ∧
      (doReduce splitOmittedWorld RangeOrder.inserted sampleName "job" 0 "out" 2
        joinValues).outcome = Outcome.returned ∧
      (doReduce omittedValueWorld RangeOrder.inserted sampleName "job" 0 "out" 1
        joinValues).outcome = Outcome.returned ∧
      (doReduce splitOmittedWorld RangeOrder.inserted sampleName "job" 0 "out" 2
        joinValues).files "out" = some [encodeKV ⟨"a", "1"⟩, encodeKV ⟨"b", ""⟩] ∧
      (doReduce omittedValueWorld RangeOrder.inserted sampleName "job" 0 "out" 1
        joinValues).files "out" = some [encodeKV ⟨"a", "1"⟩, encodeKV ⟨"b", "1"⟩] := by
  decide

/-- C14 (amended): on a successful run the value sequence that the grouped
mapping holds for a key, and that `doReduce` passes to `reduceF`, is the
sequence of the values of the records with that key in the concatenation of
the files' records by increasing map-task index, each file in record order.
Hence, when every input file holds complete records only, for every reduce
function a successful run on the single file that holds the contents of the
input files one after the other makes the same calls of `reduceF` and leaves
the same output. -/
theorem doReduce_values_in_file_order (w : World) (ro : RangeOrder)
    (reduceName : String → Int → Int → String) (jobName : String) (reduceTask : Int)
    (outFile : String) (nMap : Int) (reduceF : String → List String → String)
    (fss : List (List KeyValue))
    (hread : inputRecords w reduceName jobName reduceTask nMap = some fss)
    (hcreate : w.createFails outFile = false) (hwrite : ∀ n, w.writeFails n = none) :
    (∃ m : GoMap, collect w reduceName jobName reduceTask nMap = Except.ok m ∧
        ∀ k, m.get k = valuesOf k fss.flatten) ∧
      (doReduce w ro reduceName jobName reduceTask outFile nMap reduceF).calls =
        (sortStrings (keysOf fss.flatten).dedup).map
          (fun k => (k, valuesOf k fss.flatten)) ∧
      (∀ (w' : World) (ro' : RangeOrder) (reduceName' : String → Int → Int → String)
          (jobName' : String) (reduceTask' : Int),
        inputContents w reduceName jobName reduceTask nMap =
            fss.map (fun fs => some (fs.map encodeKV)) →
          inputContents w' reduceName' jobName' reduceTask' 1 =
            [some ((fss.map (fun fs => fs.map encodeKV)).flatten)] →
          w'.createFails outFile = false → (∀ n, w'.writeFails n = none) →
          (doReduce w' ro' reduceName' jobName' reduceTask' outFile 1 reduceF).calls =
              (doReduce w ro reduceName jobName reduceTask outFile nMap reduceF).calls ∧
            (doReduce w' ro' reduceName' jobName' reduceTask' outFile 1 reduceF).files
                outFile =
              (doReduce w ro reduceName jobName reduceTask outFile nMap reduceF).files
                outFile) := by
  have hdedup : sortStrings (ro.shuffle (fss.flatten.foldl addKV []).keys) =
      sortStrings (keysOf fss.flatten).dedup := by
    apply sortStrings_eq_of_perm
    refine (ro.perm _).trans ?_
    apply (List.perm_ext_iff_of_nodup (nodup_keys_foldl_addKV _ [] List.nodup_nil)
      (List.nodup_dedup _)).mpr
    intro k
    rw [mem_keys_foldl_addKV, List.mem_dedup]
    simp [GoMap.keys]
  refine ⟨⟨fss.flatten.foldl addKV [],
    collect_of_inputRecords w reduceName jobName reduceTask nMap fss hread, ?_⟩, ?_, ?_⟩
  · intro k
    rw [get_foldl_addKV]
    simp [GoMap.get]
  · rw [doReduce_of_success w ro reduceName jobName reduceTask outFile nMap reduceF fss
      hread hcreate hwrite, hdedup]
  · intro w' ro' reduceName' jobName' reduceTask' _ hmerged hcreate' hwrite'
    have hread' : inputRecords w' reduceName' jobName' reduceTask' 1 =
        some [fss.flatten] := by
      apply readFiles_of_complete
      rw [List.map_cons, List.map_nil, List.map_flatten]
      exact hmerged
    have hflat : [fss.flatten].flatten = fss.flatten := List.flatten_singleton _
    have hkeys : sortStrings (ro'.shuffle (fss.flatten.foldl addKV []).keys) =
        sortStrings (ro.shuffle (fss.flatten.foldl addKV []).keys) :=
      sortStrings_eq_of_perm _ _ ((ro'.perm _).trans (ro.perm _).symm)
    rw [doReduce_of_success w ro reduceName jobName reduceTask outFile nMap reduceF fss
        hread hcreate hwrite,
      doReduce_of_success w' ro' reduceName' jobName' reduceTask' outFile 1 reduceF
        [fss.flatten] hread' hcreate' hwrite', hflat, hkeys]
    simp only [Function.update_same, and_self]

theorem doReduce_values_in_file_order_witness :
    inputRecords orderedWorld sampleName "job" 0 2 = some orderedRecords ∧
    orderedWorld.createFails "out" = false ∧ (∀ n, orderedWorld.writeFails n = none) ∧
    inputContents orderedWorld sampleName "job" 0 2 =
      orderedRecords.map (fun fs => some (fs.map encodeKV)) ∧
    inputContents orderedMergedWorld sampleName "job" 0 1 =
      [some ((orderedRecords.map (fun fs => fs.map encodeKV)).flatten)] ∧
    orderedMergedWorld.createFails "out" = false ∧
    (∀ n, orderedMergedWorld.writeFails n = none) ∧
    valuesOf "k" orderedRecords.flatten = ["x", "y"] ∧
    (∃ m : GoMap, collect orderedWorld sampleName "job" 0 2 = Except.ok m ∧
        ∀ k, m.get k = valuesOf k orderedRecords.flatten) ∧
      (doReduce orderedWorld RangeOrder.inserted sampleName "job" 0 "out" 2
          joinValues).calls =
        (sortStrings (keysOf orderedRecords.flatten).dedup).map
          (fun k => (k, valuesOf k orderedRecords.flatten)) ∧
      (doReduce orderedMergedWorld RangeOrder.reversed sampleName "job" 0 "out" 1
          joinValues).calls =
        (doReduce orderedWorld RangeOrder.inserted sampleName "job" 0 "out" 2
          joinValues).calls ∧
      (doReduce orderedMergedWorld RangeOrder.reversed sampleName "job" 0 "out" 1
          joinValues).files "out" =
        (doReduce orderedWorld RangeOrder.inserted sampleName "job" 0 "out" 2
          joinValues).files "out" :=
  ⟨by decide, by decide, fun _ => rfl, by decide, by decide, by decide, fun _ => rfl,
    by decide,
    (doReduce_values_in_file_order orderedWorld RangeOrder.inserted sampleName "job" 0
      "out" 2 joinValues orderedRecords (by decide) (by decide) (fun _ => rfl)).1,
    (doReduce_values_in_file_order orderedWorld RangeOrder.inserted sampleName "job" 0
      "out" 2 joinValues orderedRecords (by decide) (by decide) (fun _ => rfl)).2.1,
    (doReduce_values_in_file_order orderedWorld RangeOrder.inserted sampleName "job" 0
      "out" 2 joinValues orderedRecords (by decide) (by decide) (fun _ => rfl)).2.2
      orderedMergedWorld RangeOrder.reversed sampleName "job" 0 (by decide) (by decide)
      (by decide) (fun _ => rfl)⟩

/-- The record that the `Decode` call on an object yields is built from the
object and from the record that the preceding call left in `kv` (the initial
`kv` for the first call). -/
theorem decodeAll_getElem_of_objects (pre rest : List Chunk) (key value : Option String)
    (kv : KeyValue) (recs : List KeyValue)
    (hpre : ∀ c ∈ pre, ∃ k v, c = Chunk.object k v)
    (h : decodeAll (pre ++ Chunk.object key value :: rest) kv = some recs) :
    recs[pre.length]? =
      some (decodeInto ((recs.take pre.length).getLast?.getD kv) key value) := by
  induction pre generalizing kv recs with
  | nil =>
    simp only [List.nil_append, decodeAll, Option.map_eq_some'] at h
    obtain ⟨tl, _, rfl⟩ := h
    simp
  | cons c pre' ih =>
    obtain ⟨k, v, rfl⟩ := hpre c (List.mem_cons_self _ _)
    simp only [List.cons_append, decodeAll, Option.map_eq_some'] at h
    obtain ⟨tl, htl, rfl⟩ := h
    have ih' := ih (decodeInto kv k v) tl
      (fun c hc => hpre c (List.mem_cons_of_mem _ hc)) htl
    simp only [List.length_cons, List.getElem?_cons_succ, List.take_succ_cons, ih']
    rw [List.getLast?_cons]
    cases (tl.take pre'.length).getLast? <;> rfl

/-- C15 (counterexample): a record without `Value` field that follows the
record `(a, 1)` contributes the pair `(b, 1)`, with the value of the record
before it, whereas the same record at the start of a file contributes the
pair of `b` and the empty value. -/
theorem collect_reuses_previous_value :
    omittedValueWorld.files (sampleName "job" 0 0) =
        some [encodeKV ⟨"a", "1"⟩, Chunk.object (some "b") none] ∧
      collect omittedValueWorld sampleName "job" 0 1 =
        Except.ok [("a", ["1"]), ("b", ["1"])] ∧
      decodeAll [encodeKV ⟨"a", "1"⟩, Chunk.object (some "b") none] ⟨"", ""⟩ =
        some [⟨"a", "1"⟩, ⟨"b", "1"⟩] ∧
      decodeAll [Chunk.object (some "b") none] ⟨"", ""⟩ = some [⟨"b", ""⟩] :=
  ⟨by decide, rfl, by decide, by decide⟩

/-- C15 (amended): within one input file whose records before position `j`
decode, the pair that the `j`-th record contributes takes each field that the
record carries from the record itself and each field that it omits from the
pair contributed by the record before it (the empty string at the start of the
file); so a record that carries both fields contributes its own pair, whatever
precedes it, and these pairs are what the loop appends to the grouped mapping. -/
theorem decoded_pair_of_record (pre rest : List Chunk) (key value : Option String)
    (recs : List KeyValue) (hpre : ∀ c ∈ pre, ∃ k v, c = Chunk.object k v)
    (h : decodeAll (pre ++ Chunk.object key value :: rest) ⟨"", ""⟩ = some recs) :
    recs[pre.length]? =
        some (decodeInto ((recs.take pre.length).getLast?.getD ⟨"", ""⟩) key value) ∧
      (∀ k v, key = some k → value = some v → recs[pre.length]? = some ⟨k, v⟩) ∧
      (∀ m, decodeLoop (pre ++ Chunk.object key value :: rest) ⟨"", ""⟩ m =
        Except.ok (recs.foldl addKV m)) := by
  have hget := decodeAll_getElem_of_objects pre rest key value ⟨"", ""⟩ recs hpre h
  refine ⟨hget, ?_, fun m => decodeLoop_of_decodeAll _ _ m recs h⟩
  intro k v hk hv
  subst hk
  subst hv
  rw [hget]
  rfl

theorem decoded_pair_of_record_witness :
    (∀ c ∈ [encodeKV ⟨"a", "1"⟩], ∃ k v, c = Chunk.object k v) ∧
    decodeAll ([encodeKV ⟨"a", "1"⟩] ++ Chunk.object (some "b") none :: []) ⟨"", ""⟩ =
      some [⟨"a", "1"⟩, ⟨"b", "1"⟩] ∧
    ([⟨"a", "1"⟩, ⟨"b", "1"⟩] : List KeyValue)[[encodeKV ⟨"a", "1"⟩].length]? =
        some (decodeInto
          (((([⟨"a", "1"⟩, ⟨"b", "1"⟩] : List KeyValue).take
            [encodeKV ⟨"a", "1"⟩].length).getLast?).getD ⟨"", ""⟩) (some "b") none) ∧
      (∀ k v, some "b" = some k → (none : Option String) = some v →
        ([⟨"a", "1"⟩, ⟨"b", "1"⟩] : List KeyValue)[[encodeKV ⟨"a", "1"⟩].length]? =
          some ⟨k, v⟩) ∧
      (∀ m, decodeLoop ([encodeKV ⟨"a", "1"⟩] ++ Chunk.object (some "b") none :: [])
          ⟨"", ""⟩ m =
        Except.ok (([⟨"a", "1"⟩, ⟨"b", "1"⟩] : List KeyValue).foldl addKV m)) :=
  ⟨fun c hc => ⟨some "a", some "1", List.mem_singleton.mp hc⟩, by decide,
    decoded_pair_of_record [encodeKV ⟨"a", "1"⟩] [] (some "b") none
      [⟨"a", "1"⟩, ⟨"b", "1"⟩]
      (fun c hc => ⟨some "a", some "1", List.mem_singleton.mp hc⟩) (by decide)⟩

/-- C16: for every slice of records, and whatever order the unstable sort
leaves among records of equal key, the slice after `sortByKey` is a
permutation of its original content (the same multiset of pairs, the same
length) and its keys are in non-decreasing lexicographic order. -/
theorem sortByKey_perm_sorted (t : TieOrder) (kvPair : List KeyValue) :
    (sortByKey t kvPair).Perm kvPair ∧
      ((sortByKey t kvPair : List KeyValue) : Multiset KeyValue) = (kvPair : List KeyValue) ∧
      (sortByKey t kvPair).length = kvPair.length ∧
      (keysOf (sortByKey t kvPair)).Sorted (fun a b => a ≤ b) := by
  have hperm : (sortByKey t kvPair).Perm kvPair :=
    (List.perm_insertionSort _ _).trans (t.perm kvPair)
  have htotal : IsTotal KeyValue (fun a b => strLess b.Key a.Key = false) :=
    ⟨fun a b => by
      simp only [strLess_eq_false_iff]
      exact le_total a.Key b.Key⟩
  have htrans : IsTrans KeyValue (fun a b => strLess b.Key a.Key = false) :=
    ⟨fun a b c => by
      simp only [strLess_eq_false_iff]
      exact le_trans⟩
  have hs := List.sorted_insertionSort (fun a b : KeyValue => strLess b.Key a.Key = false)
    (t.shuffle kvPair)
  refine ⟨hperm, Multiset.coe_eq_coe.mpr hperm, hperm.length_eq, ?_⟩
  unfold keysOf List.Sorted
  rw [List.pairwise_map]
  exact List.Pairwise.imp (fun {a b} hab => (strLess_eq_false_iff a.Key b.Key).mp hab) hs

end MapReduce
